import Mathlib

/-!
Shallow embedding of the `gymnarium_base` space/position model
(`src/space.rs`) and the `Seed` byte-folding conversions (`src/lib.rs`).

Modelling conventions:
* Rust `i32` is modelled as `Int`, `usize` as `Nat` (the claims never
  exercise machine-width overflow of these), `u8` arithmetic as `Nat`
  with explicit `% 256`, `u64` reassembly as `Nat` shifts/ors.
* Rust `f32` is modelled as `ℚ`: the embedded operations only compare
  floats with `<=`, never compute with them.
* `HashMap<String, SubFormat>` is modelled as an association list in
  insertion order; lookup semantics agree because `Format::add` keeps
  keys distinct.
* A Rust `panic` (out-of-bounds slice indexing, `unwrap`) is modelled
  by `Option`: `none` is the crash.
-/

namespace Gymnarium

/-- The inclusive lower and upper bound of one dimension
(`DimensionBoundaries` in `space.rs`). -/
inductive DimensionBoundaries where
  | INTEGER : Int → Int → DimensionBoundaries
  | FLOAT : ℚ → ℚ → DimensionBoundaries
deriving DecidableEq

/-- A value inside one dimension (`DimensionValue` in `space.rs`). -/
inductive DimensionValue where
  | INTEGER : Int → DimensionValue
  | FLOAT : ℚ → DimensionValue
deriving DecidableEq

/-- `DimensionBoundaries::contains` from `space.rs`. -/
def DimensionBoundaries.contains : DimensionBoundaries → DimensionValue → Bool
  | .INTEGER lo hi, .INTEGER v => decide (lo ≤ v) && decide (v ≤ hi)
  | .INTEGER _ _, .FLOAT _ => false
  | .FLOAT lo hi, .FLOAT v => decide (lo ≤ v) && decide (v ≤ hi)
  | .FLOAT _ _, .INTEGER _ => false

/-- Spec-side containment predicate, taken from the spec's words:
"true only if the value's variant matches the boundary's variant AND the
value lies within `[min,max]` inclusive"; cross-variant containment is
always false. -/
def containsSpec : DimensionBoundaries → DimensionValue → Prop
  | .INTEGER lo hi, .INTEGER v => lo ≤ v ∧ v ≤ hi
  | .FLOAT lo hi, .FLOAT v => lo ≤ v ∧ v ≤ hi
  | _, _ => False

/-- `SpaceError` from `space.rs`. -/
inductive SpaceError where
  | GivenDimensionsDoNotMatch
  | IndexOutOfBounds
deriving DecidableEq

/-- `FormatError` from `space.rs`; `GivenSpaceDoesNotFit` carries
`needed` then `given`. -/
inductive FormatError where
  | KeyAlreadyExistsInFormat : String → FormatError
  | KeyNotFoundInFormat : String → FormatError
  | SpaceCreationError : SpaceError → FormatError
  | PositionCreationError : SpaceError → FormatError
  | GivenSpaceDoesNotFit : Nat → Nat → FormatError
  | SpaceIndexError : SpaceError → FormatError
  | PositionIndexError : SpaceError → FormatError
deriving DecidableEq

/-- The accumulation loop of `calculate_index`:
`output = index[0]; for i in 1..index.len() { output += index[i] * shape[i-1] }`. -/
def flatOffset (shape index : List Nat) : Nat :=
  (List.range (index.length - 1)).foldl
    (fun acc j => acc + index.getD (j + 1) 0 * shape.getD j 0)
    (index.headD 0)

/-- `calculate_index` from `space.rs`: errors when any zipped
`(index component, shape component)` pair has component `>=` extent,
returns `0` on an empty index, otherwise the stride-formula offset. -/
def calculate_index (shape index : List Nat) : Except SpaceError Nat :=
  if (index.zip shape).any (fun p => decide (p.2 ≤ p.1)) then
    .error .IndexOutOfBounds
  else if index.isEmpty then
    .ok 0
  else
    .ok (flatOffset shape index)

/-- The spec's stride formula (§4.2 of the spec):
`offset = index[0] + sum over i in 1..len(index) of index[i] * dimensions[i-1]`. -/
def specOffset (shape index : List Nat) : Nat :=
  index.headD 0 +
    ((List.range (index.length - 1)).map
      (fun j => index.getD (j + 1) 0 * shape.getD j 0)).sum

/-- `Space` from `space.rs`. -/
structure Space where
  boundaries : List DimensionBoundaries
  dimensions : List Nat
deriving DecidableEq

/-- `Space::new` from `space.rs`. -/
def Space.new (bs : List DimensionBoundaries) (dims : List Nat) :
    Except SpaceError Space :=
  if dims.prod = bs.length then .ok ⟨bs, dims⟩
  else .error .GivenDimensionsDoNotMatch

/-- `Space::simple_all` from `space.rs`. -/
def Space.simple_all (b : DimensionBoundaries) (times : Nat) : Space :=
  ⟨List.replicate times b, [times]⟩

/-- `Position` from `space.rs`. -/
structure Position where
  values : List DimensionValue
  dimensions : List Nat
deriving DecidableEq

/-- `Position::new` from `space.rs`. -/
def Position.new (vs : List DimensionValue) (dims : List Nat) :
    Except SpaceError Position :=
  if dims.prod = vs.length then .ok ⟨vs, dims⟩
  else .error .GivenDimensionsDoNotMatch

/-- `Space::contains` from `space.rs` (note the `.any`). -/
def Space.contains (s : Space) (p : Position) : Bool :=
  decide (s.dimensions = p.dimensions) &&
    (s.boundaries.zip p.values).any (fun x => x.1.contains x.2)

/-- The `Index<&[usize]> for Space` implementation from `space.rs`:
`calculate_index` on the dimensions, then flat indexing into
`boundaries`; `none` models the two possible panics. -/
def Space.indexOpt (s : Space) (index : List Nat) :
    Option DimensionBoundaries :=
  match calculate_index s.dimensions index with
  | .error _ => none
  | .ok i => s.boundaries.get? i

/-- The `Index<&[usize]> for Position` implementation from `space.rs`. -/
def Position.indexOpt (p : Position) (index : List Nat) :
    Option DimensionValue :=
  match calculate_index p.dimensions index with
  | .error _ => none
  | .ok i => p.values.get? i

/-- `SubFormat` from `space.rs`. -/
structure SubFormat where
  offset : Nat
  shape : List Nat
  length : Nat
deriving DecidableEq

/-- `SubFormat::new` from `space.rs`: `length = shape.iter().product()`. -/
def SubFormat.new (offset : Nat) (shape : List Nat) : SubFormat :=
  ⟨offset, shape, shape.prod⟩

/-- `Format` from `space.rs`; the `HashMap` is modelled as an
association list in insertion order (`add` keeps keys distinct, so
lookup semantics coincide). -/
structure Format where
  v : List (String × SubFormat)
  length : Nat
deriving DecidableEq

/-- Association-list lookup modelling `HashMap::get`. -/
def findEntry : List (String × SubFormat) → String → Option SubFormat
  | [], _ => none
  | e :: rest, key => if e.1 = key then some e.2 else findEntry rest key

/-- `HashMap::get` on the format's entries. -/
def Format.find (f : Format) (key : String) : Option SubFormat :=
  findEntry f.v key

/-- `HashMap::contains_key` on the format's entries. -/
def Format.containsKey (f : Format) (key : String) : Bool :=
  (f.find key).isSome

/-- `Format::default()`: empty entry map, zero length. -/
def Format.default : Format := ⟨[], 0⟩

/-- `Format::add` from `space.rs`: reject duplicate keys, otherwise
insert a `SubFormat` at the current total length and grow the length by
the sub-shape's product. -/
def Format.add (f : Format) (key : String) (shape : List Nat) :
    Except FormatError Format :=
  if f.containsKey key then
    .error (.KeyAlreadyExistsInFormat key)
  else
    let sub := SubFormat.new f.length shape
    .ok ⟨f.v ++ [(key, sub)], f.length + sub.length⟩

/-- Apply a sequence of `add` calls, keeping the format as-is whenever a
call errors (the Rust caller's `&mut self` is untouched on error). -/
def applyAdds (f : Format) : List (String × List Nat) → Format
  | [] => f
  | op :: ops =>
      applyAdds
        (match f.add op.1 op.2 with
         | .ok f2 => f2
         | .error _ => f)
        ops

/-- The read loop of `Format::get_subspace`:
`for index in offset..offset+length { push(buf[index]) }`; `none`
models the panic on an out-of-bounds read. -/
def segRead {α : Type} : List α → Nat → Nat → Option (List α)
  | _, _, 0 => some []
  | l, off, n + 1 =>
      match l.get? off with
      | some x => (segRead l (off + 1) n).map (fun r => x :: r)
      | none => none

/-- The write loop of `Format::set_subspace`:
`for index in 0..length { buf[offset+index] = sub[index] }`; `none`
models the panic on an out-of-bounds write. -/
def segWrite {α : Type} : List α → Nat → List α → Option (List α)
  | l, _, [] => some l
  | l, off, x :: xs =>
      if off < l.length then segWrite (l.set off x) (off + 1) xs else none

/-- Total companion of `segWrite`, used to state its result. -/
def segWriteT {α : Type} : List α → Nat → List α → List α
  | l, _, [] => l
  | l, off, x :: xs => segWriteT (l.set off x) (off + 1) xs

/-- `Format::get_subspace` from `space.rs`; the outer `Option` models
the panic of the copy loop. -/
def Format.get_subspace (f : Format) (space : Space) (key : String) :
    Option (Except FormatError Space) :=
  match f.find key with
  | some sf =>
      match segRead space.boundaries sf.offset sf.length with
      | some vals =>
          some ((Space.new vals sf.shape).mapError .SpaceCreationError)
      | none => none
  | none => some (.error (.KeyNotFoundInFormat key))

/-- `Format::set_subspace` from `space.rs`; the `&mut Space` argument is
modelled by returning the (possibly updated) space next to the result,
and the outer `Option` models the panic of the write loop. -/
def Format.set_subspace (f : Format) (space : Space) (key : String)
    (sub : Space) : Option (Except FormatError Unit × Space) :=
  match f.find key with
  | some sf =>
      if sub.boundaries.length = sf.length then
        match segWrite space.boundaries sf.offset sub.boundaries with
        | some newB => some (.ok (), { space with boundaries := newB })
        | none => none
      else
        some (.error (.GivenSpaceDoesNotFit sf.length sub.boundaries.length),
          space)
  | none => some (.error (.KeyNotFoundInFormat key), space)

/-- One step of the `Seed` fold from `lib.rs`:
`output[index] = output[index].overflowing_add(v).0; index = (index+1) % n`. -/
def seedFoldStep (n : Nat) (acc : List Nat × Nat) (v : Nat) :
    List Nat × Nat :=
  (acc.1.set acc.2 ((acc.1.getD acc.2 0 + v) % 256), (acc.2 + 1) % n)

/-- `impl Into<[u8; n]> for Seed` from `lib.rs`: fold the seed bytes
into an `n`-byte array initialised to zero. -/
def seedIntoBytes (n : Nat) (seed : List Nat) : List Nat :=
  (seed.foldl (seedFoldStep n) (List.replicate n 0, 0)).1

/-- `impl Into<u64> for Seed` from `lib.rs`: convert to 8 bytes, then
OR each byte shifted by `index*8` with `index` running 7 down to 0
(big-endian reassembly). -/
def seedIntoU64 (seed : List Nat) : Nat :=
  ((seedIntoBytes 8 seed).foldl
    (fun acc b => (acc.1 ||| b <<< (acc.2 * 8), acc.2 - 1)) (0, 7)).1

/-- Modelled from the spec: the `rand` crate's inclusive-uniform
sampling (external to `src/`) is abstracted as an arbitrary
deterministic state-transition per variant — "given the same `rng`
state and same boundary, results must be deterministic and
reproducible" (§4.1). -/
structure RngModel (σ : Type) where
  sampleInt : Int → Int → σ → Int × σ
  sampleFloat : ℚ → ℚ → σ → ℚ × σ

/-- `DimensionBoundaries::sample_with` from `space.rs`: one draw from
the variant's inclusive-uniform distribution, threading the RNG state. -/
def DimensionBoundaries.sampleWith {σ : Type} (R : RngModel σ) :
    DimensionBoundaries → σ → DimensionValue × σ
  | .INTEGER lo hi, s =>
      let r := R.sampleInt lo hi s
      (.INTEGER r.1, r.2)
  | .FLOAT lo hi, s =>
      let r := R.sampleFloat lo hi s
      (.FLOAT r.1, r.2)

/-- The iterator of `Space::sample_with`: sample every boundary cell in
flat storage order, threading the RNG state left to right. -/
def sampleCells {σ : Type} (R : RngModel σ) :
    List DimensionBoundaries → σ → List DimensionValue × σ
  | [], s => ([], s)
  | b :: bs, s =>
      let r := DimensionBoundaries.sampleWith R b s
      let rest := sampleCells R bs r.2
      (r.1 :: rest.1, rest.2)

/-- `Space::sample_with` from `space.rs`: map `sample_with` over the
flat boundaries, keep the dimensions. -/
def Space.sampleWith {σ : Type} (R : RngModel σ) (sp : Space) (s : σ) :
    Position × σ :=
  let r := sampleCells R sp.boundaries s
  (⟨r.1, sp.dimensions⟩, r.2)

/-! ### Helper lemmas -/

theorem foldl_add_map (f : Nat → Nat) :
    ∀ (l : List Nat) (init : Nat),
      l.foldl (fun a i => a + f i) init = init + (l.map f).sum
  | [], init => by simp
  | x :: xs, init => by
      simp only [List.foldl_cons, List.map_cons, List.sum_cons,
        foldl_add_map f xs]
      omega

theorem flatOffset_eq (shape index : List Nat) :
    flatOffset shape index = specOffset shape index := by
  unfold flatOffset specOffset
  rw [foldl_add_map]

theorem zip_any_iff {α β : Type} (p : α → β → Bool) (da : α) (db : β) :
    ∀ (l1 : List α) (l2 : List β),
      ((l1.zip l2).any fun x => p x.1 x.2) = true ↔
        ∃ i, i < l1.length ∧ i < l2.length ∧
          p (l1.getD i da) (l2.getD i db) = true
  | [], l2 => by simp
  | x :: xs, [] => by simp
  | x :: xs, y :: ys => by
      simp only [List.zip_cons_cons, List.any_cons, Bool.or_eq_true,
        zip_any_iff p da db xs ys]
      constructor
      · rintro (h | ⟨i, h1, h2, h3⟩)
        · exact ⟨0, by simp, by simp, by simpa using h⟩
        · exact ⟨i + 1, by simpa using h1, by simpa using h2, by simpa using h3⟩
      · rintro ⟨i, h1, h2, h3⟩
        cases i with
        | zero => exact Or.inl (by simpa using h3)
        | succ n =>
            exact Or.inr ⟨n, by simpa using h1, by simpa using h2,
              by simpa using h3⟩

theorem calculate_index_error_iff (shape index : List Nat) :
    calculate_index shape index = .error .IndexOutOfBounds ↔
      ∃ i, i < index.length ∧ i < shape.length ∧
        shape.getD i 0 ≤ index.getD i 0 := by
  have hz := zip_any_iff (fun (a b : Nat) => decide (b ≤ a)) 0 0 index shape
  simp only [decide_eq_true_iff] at hz
  unfold calculate_index
  constructor
  · intro hc
    split at hc
    next hany => exact hz.mp hany
    next => split at hc <;> simp at hc
  · intro hc
    have hmem := hz.mpr hc
    split
    next => rfl
    next hany => exact absurd hmem hany

theorem calculate_index_ok (shape index : List Nat)
    (h : ∀ i, i < index.length → i < shape.length →
      index.getD i 0 < shape.getD i 0) :
    calculate_index shape index = .ok (specOffset shape index) := by
  have hany : ((index.zip shape).any fun p => decide (p.2 ≤ p.1)) = false := by
    rw [Bool.eq_false_iff]
    intro hc
    obtain ⟨i, h1, h2, h3⟩ :=
      (zip_any_iff (fun (a b : Nat) => decide (b ≤ a)) 0 0 index shape).mp hc
    have h4 := h i h1 h2
    simp only [decide_eq_true_iff] at h3
    omega
  unfold calculate_index
  rw [if_neg (by simp [hany])]
  by_cases he : index.isEmpty
  · rw [if_pos he]
    have : index = [] := by
      cases index with
      | nil => rfl
      | cons a l => simp [List.isEmpty] at he
    subst this
    simp [specOffset]
  · rw [if_neg he, flatOffset_eq]

theorem one_le_prod : ∀ (l : List Nat), (∀ d ∈ l, 1 ≤ d) → 1 ≤ l.prod
  | [], _ => le_refl 1
  | d :: ds, h => by
      rw [List.prod_cons]
      have h1 := h d (List.mem_cons_self d ds)
      have h2 := one_le_prod ds (fun x hx => h x (List.mem_cons_of_mem d hx))
      calc 1 = 1 * 1 := rfl
        _ ≤ d * ds.prod := Nat.mul_le_mul h1 h2

/-- Zipped product sum: pairs `is[j]` with `ds[j]`. -/
def zipMulSum : List Nat → List Nat → Nat
  | [], _ => 0
  | _ :: _, [] => 0
  | x :: xs, d :: ds => x * d + zipMulSum xs ds

theorem zipMulSum_eq_range :
    ∀ (is ds : List Nat), is.length ≤ ds.length →
      zipMulSum is ds =
        ((List.range is.length).map fun j => is.getD j 0 * ds.getD j 0).sum
  | [], ds, _ => by simp [zipMulSum]
  | x :: xs, [], h => by simp at h
  | x :: xs, d :: ds, h => by
      have hx : xs.length ≤ ds.length := by simpa using h
      have hfun : ((fun j => (x :: xs).getD j 0 * (d :: ds).getD j 0) ∘ Nat.succ)
          = (fun j => xs.getD j 0 * ds.getD j 0) := by
        funext j
        simp [Function.comp, List.getD_cons_succ]
      simp only [zipMulSum, List.length_cons, List.range_succ_eq_map,
        List.map_cons, List.sum_cons, List.map_map, hfun]
      rw [zipMulSum_eq_range xs ds hx]
      simp

theorem specOffset_eq_zipMulSum (shape index : List Nat)
    (h : index.length ≤ shape.length) :
    specOffset shape index = index.headD 0 + zipMulSum index.tail shape := by
  cases index with
  | nil => simp [specOffset, zipMulSum]
  | cons i0 is =>
      have his : is.length ≤ shape.length := le_trans (by simp) h
      have hfun : (fun j => (i0 :: is).getD (j + 1) 0 * shape.getD j 0)
          = (fun j => is.getD j 0 * shape.getD j 0) := by
        funext j
        simp [List.getD_cons_succ]
      unfold specOffset
      simp only [List.length_cons, Nat.add_sub_cancel, List.headD_cons,
        List.tail_cons, hfun]
      rw [zipMulSum_eq_range is shape his]

theorem zipMulSum_bound :
    ∀ (is ds : List Nat) (v P : Nat),
      is.length < ds.length → v < P → ds.headD 1 ≤ P →
      (∀ j, j < is.length → is.getD j 0 < ds.getD (j + 1) 0) →
      (∀ d ∈ ds, 1 ≤ d) →
      v + zipMulSum is ds < P * ds.tail.prod
  | [], ds, v, P, _, hv, _, _, hpos => by
      have h1 : 1 ≤ ds.tail.prod :=
        one_le_prod ds.tail (fun x hx => hpos x (List.mem_of_mem_tail hx))
      have h2 : P ≤ P * ds.tail.prod := Nat.le_mul_of_pos_right P (by omega)
      simp only [zipMulSum]
      omega
  | x :: xs, [], v, P, hlen, _, _, _, _ => by simp at hlen
  | x :: xs, [d0], v, P, hlen, _, _, _, _ => by simp at hlen
  | x :: xs, d0 :: d1 :: rest, v, P, hlen, hv, hh, hvalid, hpos => by
      have hP1 : 1 ≤ P := by omega
      have hd0 : d0 ≤ P := by simpa using hh
      have hx : x < d1 := by simpa using hvalid 0 (by simp)
      have hv2 : v + x * d0 < P * d1 := by
        have e1 : x * d0 ≤ x * P := Nat.mul_le_mul_left x hd0
        have e2 : v + x * P < P + x * P := by omega
        have e3 : P + x * P = (x + 1) * P := by ring
        have e4 : (x + 1) * P ≤ d1 * P := Nat.mul_le_mul_right P (by omega)
        have e5 : d1 * P = P * d1 := Nat.mul_comm d1 P
        omega
      have ih := zipMulSum_bound xs (d1 :: rest) (v + x * d0) (P * d1)
        (by simp only [List.length_cons] at hlen ⊢; omega)
        hv2
        (by
          simp only [List.headD_cons]
          exact Nat.le_mul_of_pos_left d1 (by omega))
        (fun j hj => by simpa using hvalid (j + 1) (by simpa using hj))
        (fun d hd => hpos d (List.mem_cons_of_mem d0 hd))
      simp only [zipMulSum, List.tail_cons, List.prod_cons] at ih ⊢
      calc v + (x * d0 + zipMulSum xs (d1 :: rest))
          = v + x * d0 + zipMulSum xs (d1 :: rest) := by omega
        _ < P * d1 * rest.prod := ih
        _ = P * (d1 * rest.prod) := by ring

theorem specOffset_lt_prod (shape index : List Nat)
    (hlen : index.length ≤ shape.length)
    (hvalid : ∀ i, i < index.length → index.getD i 0 < shape.getD i 0)
    (hpos : ∀ d ∈ shape, 1 ≤ d) :
    specOffset shape index < shape.prod := by
  cases index with
  | nil =>
      simp only [specOffset, List.headD_nil, List.length_nil, Nat.zero_sub,
        List.range_zero, List.map_nil, List.sum_nil, Nat.add_zero]
      exact one_le_prod shape hpos
  | cons i0 is =>
      cases shape with
      | nil => simp at hlen
      | cons d0 ds =>
          rw [specOffset_eq_zipMulSum _ _ hlen]
          have h0 : i0 < d0 := by simpa using hvalid 0 (by simp)
          have hb := zipMulSum_bound is (d0 :: ds) i0 d0
            (by simp only [List.length_cons] at hlen ⊢; omega)
            h0
            (by simp)
            (fun j hj => by simpa using hvalid (j + 1) (by simpa using hj))
            hpos
          simpa [List.prod_cons] using hb

theorem segWriteT_length {α : Type} :
    ∀ (sub l : List α) (off : Nat), (segWriteT l off sub).length = l.length
  | [], _, _ => rfl
  | x :: xs, l, off => by
      simp only [segWriteT]
      rw [segWriteT_length xs _ _, List.length_set]

theorem segWrite_eq {α : Type} :
    ∀ (sub l : List α) (off : Nat), off + sub.length ≤ l.length →
      segWrite l off sub = some (segWriteT l off sub)
  | [], _, _, _ => rfl
  | x :: xs, l, off, h => by
      have hoff : off < l.length := by
        simp only [List.length_cons] at h
        omega
      simp only [segWrite, segWriteT, if_pos hoff]
      exact segWrite_eq xs (l.set off x) (off + 1)
        (by simp only [List.length_set, List.length_cons] at h ⊢; omega)

theorem segWriteT_get_low {α : Type} :
    ∀ (sub l : List α) (off i : Nat), i < off →
      (segWriteT l off sub).get? i = l.get? i
  | [], _, _, _, _ => rfl
  | x :: xs, l, off, i, h => by
      simp only [segWriteT]
      rw [segWriteT_get_low xs _ _ _ (by omega)]
      exact List.get?_set_ne x l (by omega)

theorem segWriteT_get_high {α : Type} :
    ∀ (sub l : List α) (off i : Nat), off + sub.length ≤ i →
      (segWriteT l off sub).get? i = l.get? i
  | [], _, _, _, _ => rfl
  | x :: xs, l, off, i, h => by
      simp only [List.length_cons] at h
      simp only [segWriteT]
      rw [segWriteT_get_high xs _ _ _ (by omega)]
      exact List.get?_set_ne x l (by omega)

theorem segWriteT_get_mid {α : Type} :
    ∀ (sub l : List α) (off i : Nat), off + sub.length ≤ l.length →
      off ≤ i → i < off + sub.length →
      (segWriteT l off sub).get? i = sub.get? (i - off)
  | [], _, _, i, _, h1, h2 => by
      simp only [List.length_nil] at h2
      omega
  | x :: xs, l, off, i, hlen, h1, h2 => by
      simp only [List.length_cons] at hlen h2
      by_cases hi : i = off
      · subst hi
        simp only [segWriteT, Nat.sub_self]
        rw [segWriteT_get_low xs _ _ _ (by omega)]
        rw [List.get?_set_eq_of_lt x (by omega)]
        rfl
      · obtain ⟨k, hk⟩ : ∃ k, i - off = k + 1 := ⟨i - off - 1, by omega⟩
        simp only [segWriteT]
        rw [segWriteT_get_mid xs (l.set off x) (off + 1) i
          (by simp only [List.length_set]; omega) (by omega) (by omega)]
        rw [hk, List.get?_cons_succ]
        congr 1
        omega

theorem segRead_eq {α : Type} :
    ∀ (n : Nat) (l : List α) (off : Nat), off + n ≤ l.length →
      segRead l off n = some ((l.drop off).take n)
  | 0, l, off, _ => rfl
  | n + 1, l, off, h => by
      have hoff : off < l.length := by omega
      have hx : l.get? off = some (l.get ⟨off, hoff⟩) := List.get?_eq_get hoff
      simp only [segRead, hx]
      rw [segRead_eq n l (off + 1) (by omega)]
      simp only [Option.map_some']
      congr 1
      rw [List.drop_eq_get_cons hoff]
      rfl

theorem slice_of_segWriteT {α : Type} (l sub : List α) (off : Nat)
    (h : off + sub.length ≤ l.length) :
    ((segWriteT l off sub).drop off).take sub.length = sub := by
  have hlen : (((segWriteT l off sub).drop off).take sub.length).length
      = sub.length := by
    simp only [List.length_take, List.length_drop, segWriteT_length]
    omega
  apply List.ext_get?
  intro i
  by_cases hi : i < sub.length
  · rw [List.get?_take hi, List.get?_drop]
    rw [segWriteT_get_mid sub l off (off + i) h (by omega) (by omega)]
    congr 1
    omega
  · rw [List.get?_eq_none.mpr (by omega), List.get?_eq_none.mpr (by omega)]

/-! ### Format contiguity invariant -/

/-- Entries sit back to back: starting at `start`, each entry's offset
is the running total, its `length` is its shape's product, and the
ranges end exactly at `stop`. -/
def entriesContiguous : Nat → List (String × SubFormat) → Nat → Prop
  | start, [], stop => start = stop
  | start, e :: rest, stop =>
      e.2.offset = start ∧ e.2.length = e.2.shape.prod ∧
        entriesContiguous (start + e.2.length) rest stop

theorem entriesContiguous_append (k : String) (shape : List Nat) :
    ∀ (l : List (String × SubFormat)) (start stop : Nat),
      entriesContiguous start l stop →
      entriesContiguous start (l ++ [(k, SubFormat.new stop shape)])
        (stop + shape.prod)
  | [], start, stop, h => by
      simp only [entriesContiguous] at h
      subst h
      exact ⟨rfl, rfl, rfl⟩
  | e :: rest, start, stop, h => by
      obtain ⟨h1, h2, h3⟩ := h
      exact ⟨h1, h2, entriesContiguous_append k shape rest _ stop h3⟩

theorem entriesContiguous_sum :
    ∀ (l : List (String × SubFormat)) (start stop : Nat),
      entriesContiguous start l stop →
      start + (l.map fun e => e.2.length).sum = stop
  | [], start, stop, h => by simpa [entriesContiguous] using h
  | e :: rest, start, stop, h => by
      obtain ⟨_, _, h3⟩ := h
      have ih := entriesContiguous_sum rest _ _ h3
      simp only [List.map_cons, List.sum_cons]
      omega

theorem entriesContiguous_lb :
    ∀ (l : List (String × SubFormat)) (start stop : Nat),
      entriesContiguous start l stop →
      ∀ e ∈ l, start ≤ e.2.offset
  | [], _, _, _ => by simp
  | e :: rest, start, stop, h => by
      obtain ⟨h1, _, h3⟩ := h
      intro x hx
      rcases List.mem_cons.mp hx with hx | hx
      · subst hx; omega
      · have := entriesContiguous_lb rest _ _ h3 x hx
        omega

theorem entriesContiguous_pairwise :
    ∀ (l : List (String × SubFormat)) (start stop : Nat),
      entriesContiguous start l stop →
      l.Pairwise (fun a b => a.2.offset + a.2.length ≤ b.2.offset)
  | [], _, _, _ => List.Pairwise.nil
  | e :: rest, start, stop, h => by
      obtain ⟨h1, _, h3⟩ := h
      refine List.Pairwise.cons ?_ (entriesContiguous_pairwise rest _ _ h3)
      intro b hb
      have := entriesContiguous_lb rest _ _ h3 b hb
      omega

theorem entriesContiguous_ub :
    ∀ (l : List (String × SubFormat)) (start stop : Nat),
      entriesContiguous start l stop →
      ∀ e ∈ l, e.2.offset + e.2.length ≤ stop
  | [], _, _, _ => by simp
  | e :: rest, start, stop, h => by
      obtain ⟨h1, _, h3⟩ := h
      intro x hx
      rcases List.mem_cons.mp hx with hx | hx
      · subst hx
        have := entriesContiguous_sum rest _ _ h3
        omega
      · exact entriesContiguous_ub rest _ _ h3 x hx

theorem add_step_inv (f : Format) (key : String) (shape : List Nat)
    (h : entriesContiguous 0 f.v f.length) :
    entriesContiguous 0
      (match f.add key shape with | .ok f2 => f2 | .error _ => f).v
      (match f.add key shape with | .ok f2 => f2 | .error _ => f).length := by
  unfold Format.add
  by_cases hc : f.containsKey key = true
  · simp only [hc, if_true]
    exact h
  · simp only [hc, if_false]
    simpa using entriesContiguous_append key shape f.v 0 f.length h

theorem applyAdds_inv :
    ∀ (ops : List (String × List Nat)) (f : Format),
      entriesContiguous 0 f.v f.length →
      entriesContiguous 0 (applyAdds f ops).v (applyAdds f ops).length
  | [], _, h => h
  | op :: ops, f, h => by
      unfold applyAdds
      exact applyAdds_inv ops _ (add_step_inv f op.1 op.2 h)

/-! ### Sampling lemmas -/

theorem sampleCells_length {σ : Type} (R : RngModel σ) :
    ∀ (l : List DimensionBoundaries) (s : σ),
      (sampleCells R l s).1.length = l.length
  | [], _ => rfl
  | b :: bs, s => by
      simp only [sampleCells, List.length_cons]
      rw [sampleCells_length R bs _]

theorem sampleCells_append {σ : Type} (R : RngModel σ) :
    ∀ (l1 l2 : List DimensionBoundaries) (s : σ),
      sampleCells R (l1 ++ l2) s =
        ((sampleCells R l1 s).1 ++ (sampleCells R l2 (sampleCells R l1 s).2).1,
          (sampleCells R l2 (sampleCells R l1 s).2).2)
  | [], l2, s => by simp [sampleCells]
  | b :: bs, l2, s => by
      simp only [List.cons_append, sampleCells, List.append_eq]
      rw [sampleCells_append R bs l2 _]

/-! ### Claims -/

/-- Claim C2: for equal-length shape and index, `calculate_index`
returns `IndexOutOfBounds` exactly when some index component reaches its
extent, otherwise the spec's stride-formula offset; concretely,
`calculate_index [2,2,3] [1,1,2] = Ok 7`. -/
theorem claim_C2 (shape index : List Nat) (h : index.length = shape.length) :
    (calculate_index shape index = .error .IndexOutOfBounds ↔
      ∃ i, i < index.length ∧ shape.getD i 0 ≤ index.getD i 0) ∧
    ((∀ i, i < index.length → index.getD i 0 < shape.getD i 0) →
      calculate_index shape index = .ok (specOffset shape index)) ∧
    calculate_index [2, 2, 3] [1, 1, 2] = .ok 7 := by
  refine ⟨?_, ?_, rfl⟩
  · rw [calculate_index_error_iff]
    constructor
    · rintro ⟨i, h1, _, h3⟩
      exact ⟨i, h1, h3⟩
    · rintro ⟨i, h1, h3⟩
      exact ⟨i, h1, h ▸ h1, h3⟩
  · intro hv
    exact calculate_index_ok shape index (fun i h1 _ => hv i h1)

/-- Witness for C2 at the spec's concrete example. -/
theorem claim_C2_witness :
    calculate_index [2, 2, 3] [1, 1, 2] = .ok 7 ∧
    calculate_index [2, 2, 3] [1, 1, 3] = .error .IndexOutOfBounds := by
  constructor
  · exact (claim_C2 [2, 2, 3] [1, 1, 2] rfl).2.2
  · exact (claim_C2 [2, 2, 3] [1, 1, 3] rfl).1.mpr ⟨2, by decide, by decide⟩

/-- Claim C3: `DimensionBoundaries::contains` is true exactly for
same-variant values within the inclusive bounds; cross-variant pairs
are always false, and the spec's concrete examples hold. -/
theorem claim_C3 :
    (∀ (b : DimensionBoundaries) (v : DimensionValue),
      b.contains v = true ↔ containsSpec b v) ∧
    (DimensionBoundaries.INTEGER 1 2).contains (.INTEGER 1) = true ∧
    (DimensionBoundaries.INTEGER 1 2).contains (.INTEGER 3) = false ∧
    (DimensionBoundaries.INTEGER 1 2).contains (.FLOAT 1) = false ∧
    (∀ (lo hi : Int) (q : ℚ),
      (DimensionBoundaries.INTEGER lo hi).contains (.FLOAT q) = false) ∧
    (∀ (lo hi : ℚ) (n : Int),
      (DimensionBoundaries.FLOAT lo hi).contains (.INTEGER n) = false) := by
  refine ⟨?_, by decide, by decide, rfl, fun _ _ _ => rfl, fun _ _ _ => rfl⟩
  rintro (⟨lo, hi⟩ | ⟨lo, hi⟩) (⟨v⟩ | ⟨v⟩) <;>
    simp [DimensionBoundaries.contains, containsSpec]

/-- Claim C4: `Space::new` and `Position::new` succeed exactly when the
dimension product equals the flat length, and otherwise fail with
`GivenDimensionsDoNotMatch`. -/
theorem claim_C4 :
    (∀ (bs : List DimensionBoundaries) (dims : List Nat),
      (dims.prod = bs.length → Space.new bs dims = .ok ⟨bs, dims⟩) ∧
      (dims.prod ≠ bs.length →
        Space.new bs dims = .error .GivenDimensionsDoNotMatch) ∧
      ((∃ sp, Space.new bs dims = .ok sp) ↔ dims.prod = bs.length)) ∧
    (∀ (vs : List DimensionValue) (dims : List Nat),
      (dims.prod = vs.length → Position.new vs dims = .ok ⟨vs, dims⟩) ∧
      (dims.prod ≠ vs.length →
        Position.new vs dims = .error .GivenDimensionsDoNotMatch) ∧
      ((∃ p, Position.new vs dims = .ok p) ↔ dims.prod = vs.length)) := by
  constructor
  · intro bs dims
    by_cases h : dims.prod = bs.length <;>
      simp [Space.new, h]
  · intro vs dims
    by_cases h : dims.prod = vs.length <;>
      simp [Position.new, h]

/-- Witness for C4 on concrete matching and mismatching shapes. -/
theorem claim_C4_witness :
    Space.new [DimensionBoundaries.INTEGER 0 1] [1] =
      .ok ⟨[DimensionBoundaries.INTEGER 0 1], [1]⟩ ∧
    Space.new [] [2] = .error .GivenDimensionsDoNotMatch ∧
    Position.new [DimensionValue.INTEGER 0] [2] =
      .error .GivenDimensionsDoNotMatch := by
  refine ⟨(claim_C4.1 _ _).1 (by decide), (claim_C4.1 _ _).2.1 (by decide),
    (claim_C4.2 _ _).2.1 (by decide)⟩

/-- Claim C1 counterexample: `Space::contains` answers `true` for a
position whose second cell lies outside its boundary, so "every paired
boundary contains its value" does not characterise the implementation
(the `.any` inversion the spec flags). -/
theorem claim_C1_counterexample :
    Space.contains ⟨[.INTEGER 0 0, .INTEGER 0 0], [2]⟩
        ⟨[.INTEGER 0, .INTEGER 5], [2]⟩ = true ∧
    ¬ (∀ i, i < 2 →
      (List.getD [DimensionBoundaries.INTEGER 0 0,
          DimensionBoundaries.INTEGER 0 0] i (.INTEGER 0 0)).contains
        (List.getD [DimensionValue.INTEGER 0,
          DimensionValue.INTEGER 5] i (.INTEGER 0)) = true) := by
  constructor
  · decide
  · intro h
    exact absurd (h 1 (by decide)) (by decide)

/-- Claim C1 (amended): `Space::contains` returns `true` iff the
dimensions are equal and SOME zipped pair's boundary contains its value
(an existential, not universal, check). -/
theorem claim_C1_amended (s : Space) (p : Position) :
    s.contains p = true ↔
      (s.dimensions = p.dimensions ∧
        ∃ i, i < s.boundaries.length ∧ i < p.values.length ∧
          (s.boundaries.getD i (.INTEGER 0 0)).contains
            (p.values.getD i (.INTEGER 0)) = true) := by
  unfold Space.contains
  rw [Bool.and_eq_true, decide_eq_true_iff]
  exact and_congr_right fun _ =>
    zip_any_iff (fun (a : DimensionBoundaries) (b : DimensionValue) =>
      a.contains b) (.INTEGER 0 0) (.INTEGER 0) s.boundaries p.values

/-- Claim C5: `Format::add` rejects duplicate keys, otherwise appends
the new entry at the running total offset with length `shape.prod` and
grows the total; under any sequence of `add` calls from the default
format the registered ranges stay contiguous, their lengths sum to the
total, and they are pairwise disjoint. -/
theorem claim_C5 :
    (∀ (f : Format) (key : String) (shape : List Nat),
      (f.containsKey key = true →
        f.add key shape = .error (.KeyAlreadyExistsInFormat key)) ∧
      (f.containsKey key = false →
        f.add key shape =
          .ok ⟨f.v ++ [(key, SubFormat.new f.length shape)],
            f.length + shape.prod⟩)) ∧
    (∀ ops : List (String × List Nat),
      entriesContiguous 0 (applyAdds Format.default ops).v
        (applyAdds Format.default ops).length ∧
      ((applyAdds Format.default ops).v.map fun e => e.2.length).sum =
        (applyAdds Format.default ops).length ∧
      (applyAdds Format.default ops).v.Pairwise
        (fun a b => a.2.offset + a.2.length ≤ b.2.offset)) := by
  constructor
  · intro f key shape
    constructor
    · intro hc
      simp [Format.add, hc]
    · intro hc
      simp [Format.add, hc, SubFormat.new]
  · intro ops
    have hinv := applyAdds_inv ops Format.default rfl
    refine ⟨hinv, ?_, entriesContiguous_pairwise _ _ _ hinv⟩
    have := entriesContiguous_sum _ _ _ hinv
    omega

/-- Witness for C5: a duplicate key is rejected and a fresh key is
appended at the running offset. -/
theorem claim_C5_witness :
    Format.add ⟨[("k", SubFormat.new 0 [2])], 2⟩ "k" [3] =
      .error (.KeyAlreadyExistsInFormat "k") ∧
    Format.add Format.default "k" [2, 3] =
      .ok ⟨[("k", SubFormat.new 0 [2, 3])], 6⟩ := by
  constructor
  · exact (claim_C5.1 _ "k" [3]).1 (by decide)
  · have h := (claim_C5.1 Format.default "k" [2, 3]).2 (by decide)
    simpa [Format.default] using h

/-- Claim C7: `Format::set_subspace` with a sub-space of the wrong flat
length fails with `GivenSpaceDoesNotFit{needed, given}` carrying the
registered length and the supplied length, and returns the target space
unchanged. -/
theorem claim_C7 (f : Format) (k : String) (sf : SubFormat)
    (space sub : Space)
    (h1 : f.find k = some sf)
    (h2 : sub.boundaries.length ≠ sf.length) :
    f.set_subspace space k sub =
      some (.error (.GivenSpaceDoesNotFit sf.length sub.boundaries.length),
        space) := by
  simp [Format.set_subspace, h1, h2]

/-- Witness for C7: a 1-cell sub-space against a 2-cell registration. -/
theorem claim_C7_witness :
    Format.set_subspace ⟨[("k", ⟨0, [2], 2⟩)], 2⟩
        ⟨[.INTEGER 0 0, .INTEGER 0 0], [2]⟩ "k" ⟨[.INTEGER 1 1], [1]⟩ =
      some (.error (.GivenSpaceDoesNotFit 2 1),
        ⟨[.INTEGER 0 0, .INTEGER 0 0], [2]⟩) :=
  claim_C7 _ "k" ⟨0, [2], 2⟩ _ _ (by decide) (by decide)

/-- Claim C8: folding the byte sequence `[1,2,3,4]` into an 8-byte
array with the `Seed` fold and reassembling it big-endian as a 64-bit
integer yields `72623859706101760`. -/
theorem claim_C8 : seedIntoU64 [1, 2, 3, 4] = 72623859706101760 := by
  rfl

/-- Claim C9: `Space::sample_with` is a deterministic function of the
space and the RNG state; the sampled position keeps the space's
dimensions and has one value per boundary cell; and cells are drawn in
flat storage order, threading the RNG state left to right. -/
theorem claim_C9 :
    (∀ (σ : Type) (R : RngModel σ) (sp1 sp2 : Space) (s1 s2 : σ),
      sp1 = sp2 → s1 = s2 →
        Space.sampleWith R sp1 s1 = Space.sampleWith R sp2 s2) ∧
    (∀ (σ : Type) (R : RngModel σ) (sp : Space) (s : σ),
      (Space.sampleWith R sp s).1.dimensions = sp.dimensions ∧
      (Space.sampleWith R sp s).1.values.length = sp.boundaries.length) ∧
    (∀ (σ : Type) (R : RngModel σ) (l1 l2 : List DimensionBoundaries)
        (s : σ),
      sampleCells R (l1 ++ l2) s =
        ((sampleCells R l1 s).1 ++
            (sampleCells R l2 (sampleCells R l1 s).2).1,
          (sampleCells R l2 (sampleCells R l1 s).2).2)) := by
  refine ⟨?_, ?_, ?_⟩
  · intro σ R sp1 sp2 s1 s2 h1 h2
    rw [h1, h2]
  · intro σ R sp s
    exact ⟨rfl, sampleCells_length R sp.boundaries s⟩
  · intro σ R l1 l2 s
    exact sampleCells_append R l1 l2 s

/-- A concrete deterministic RNG model used by the C9 witness. -/
def constRng : RngModel Nat :=
  ⟨fun lo _ s => (lo, s + 1), fun lo _ s => (lo, s + 1)⟩

/-- Witness for C9: two runs on the same concrete space and seed state
coincide, and the shape is preserved. -/
theorem claim_C9_witness :
    Space.sampleWith constRng (Space.simple_all (.INTEGER 5 9) 2) 0 =
      Space.sampleWith constRng (Space.simple_all (.INTEGER 5 9) 2) 0 ∧
    (Space.sampleWith constRng
      (Space.simple_all (.INTEGER 5 9) 2) 0).1.dimensions = [2] :=
  ⟨claim_C9.1 Nat constRng _ _ 0 0 rfl rfl,
    (claim_C9.2.1 Nat constRng (Space.simple_all (.INTEGER 5 9) 2) 0).1⟩

/-- Claim C6: after a successful registration of `k` (entry found, its
length is its shape's product, its range fits the format total — all
guaranteed by `add`), writing a fitting sub-space into a space of the
format's flat length and reading it back yields a space with exactly
the sub-space's boundaries and the registered shape, while every flat
cell outside `[offset, offset+length)` is untouched. -/
theorem claim_C6 (f : Format) (k : String) (sf : SubFormat)
    (space sub : Space)
    (h1 : f.find k = some sf)
    (h2 : sf.length = sf.shape.prod)
    (h3 : space.boundaries.length = f.length)
    (h4 : sf.offset + sf.length ≤ f.length)
    (h5 : sub.boundaries.length = sf.shape.prod) :
    f.set_subspace space k sub =
      some (.ok (),
        { space with
            boundaries :=
              segWriteT space.boundaries sf.offset sub.boundaries }) ∧
    f.get_subspace
      { space with
          boundaries :=
            segWriteT space.boundaries sf.offset sub.boundaries } k =
      some (.ok ⟨sub.boundaries, sf.shape⟩) ∧
    (∀ i, i < sf.offset ∨ sf.offset + sf.length ≤ i →
      (segWriteT space.boundaries sf.offset sub.boundaries).get? i =
        space.boundaries.get? i) := by
  have hlen : sub.boundaries.length = sf.length := by rw [h5, h2]
  have hbound : sf.offset + sub.boundaries.length ≤
      space.boundaries.length := by
    rw [hlen, h3]
    exact h4
  refine ⟨?_, ?_, ?_⟩
  · simp only [Format.set_subspace, h1, if_pos hlen]
    rw [segWrite_eq sub.boundaries space.boundaries sf.offset hbound]
  · simp only [Format.get_subspace, h1]
    have hb2 : sf.offset + sf.length ≤
        (segWriteT space.boundaries sf.offset sub.boundaries).length := by
      rw [segWriteT_length]
      omega
    rw [segRead_eq sf.length _ sf.offset hb2]
    have hslice :
        ((segWriteT space.boundaries sf.offset sub.boundaries).drop
          sf.offset).take sf.length = sub.boundaries := by
      rw [← hlen]
      exact slice_of_segWriteT space.boundaries sub.boundaries sf.offset
        hbound
    rw [hslice]
    simp [Space.new, h5.symm, Except.mapError]
  · intro i hi
    rcases hi with hi | hi
    · exact segWriteT_get_low sub.boundaries space.boundaries sf.offset i hi
    · exact segWriteT_get_high sub.boundaries space.boundaries sf.offset i
        (by omega)

/-- Witness for C6: write `[1..1, 2..2]` over a two-cell space under
key "k" and read it back. -/
theorem claim_C6_witness :
    Format.set_subspace ⟨[("k", ⟨0, [2], 2⟩)], 2⟩
        ⟨[.INTEGER 0 0, .INTEGER 0 0], [2]⟩ "k"
        ⟨[.INTEGER 1 1, .INTEGER 2 2], [2]⟩ =
      some (.ok (), ⟨[.INTEGER 1 1, .INTEGER 2 2], [2]⟩) ∧
    Format.get_subspace ⟨[("k", ⟨0, [2], 2⟩)], 2⟩
        ⟨[.INTEGER 1 1, .INTEGER 2 2], [2]⟩ "k" =
      some (.ok ⟨[.INTEGER 1 1, .INTEGER 2 2], [2]⟩) := by
  have h := claim_C6 ⟨[("k", ⟨0, [2], 2⟩)], 2⟩ "k" ⟨0, [2], 2⟩
    ⟨[.INTEGER 0 0, .INTEGER 0 0], [2]⟩ ⟨[.INTEGER 1 1, .INTEGER 2 2], [2]⟩
    (by decide) (by decide) (by decide) (by decide) (by decide)
  exact ⟨h.1, h.2.1⟩

/-- Claim C10 counterexample: on the constructible space with
dimensions `[1,0]` (empty flat storage), the too-short index `[0]` has
every supplied component below its paired extent and `calculate_index`
succeeds with offset 0, yet indexed access aborts (the flat read panics
on the empty buffer), so "indexed access with a too-short index does
not abort" fails as stated. -/
theorem claim_C10_counterexample :
    Space.new [] [1, 0] = .ok ⟨[], [1, 0]⟩ ∧
    ([0] : List Nat).length ≤ ([1, 0] : List Nat).length ∧
    (∀ i, i < ([0] : List Nat).length →
      List.getD [0] i 0 < List.getD [1, 0] i 0) ∧
    calculate_index [1, 0] [0] = .ok 0 ∧
    Space.indexOpt ⟨[], [1, 0]⟩ [0] = none :=
  ⟨rfl, by decide, by decide, rfl, rfl⟩

/-- Claim C10 (amended): `calculate_index` only bounds-checks zipped
components, so a shorter index succeeds whenever each supplied
component is below its paired extent, returning the offset of the
supplied components alone, and the empty index returns 0; indexed
access through `Space`/`Position` with such a short index does not
abort provided every dimension extent is positive. -/
theorem claim_C10_amended :
    (∀ (shape index : List Nat), index.length ≤ shape.length →
      (∀ i, i < index.length → index.getD i 0 < shape.getD i 0) →
      calculate_index shape index = .ok (specOffset shape index)) ∧
    (∀ shape : List Nat, calculate_index shape [] = .ok 0) ∧
    (∀ (sp : Space) (index : List Nat),
      sp.dimensions.prod = sp.boundaries.length →
      (∀ d ∈ sp.dimensions, 1 ≤ d) →
      index.length ≤ sp.dimensions.length →
      (∀ i, i < index.length → index.getD i 0 < sp.dimensions.getD i 0) →
      (sp.indexOpt index).isSome = true) ∧
    (∀ (p : Position) (index : List Nat),
      p.dimensions.prod = p.values.length →
      (∀ d ∈ p.dimensions, 1 ≤ d) →
      index.length ≤ p.dimensions.length →
      (∀ i, i < index.length → index.getD i 0 < p.dimensions.getD i 0) →
      (p.indexOpt index).isSome = true) := by
  have hshort : ∀ (shape index : List Nat), index.length ≤ shape.length →
      (∀ i, i < index.length → index.getD i 0 < shape.getD i 0) →
      calculate_index shape index = .ok (specOffset shape index) :=
    fun shape index _ hv =>
      calculate_index_ok shape index (fun i hi _ => hv i hi)
  refine ⟨hshort, ?_, ?_, ?_⟩
  · intro shape
    cases shape <;> rfl
  · intro sp index hwf hpos hlen hv
    have hofs : specOffset sp.dimensions index < sp.boundaries.length := by
      have := specOffset_lt_prod sp.dimensions index hlen hv hpos
      omega
    simp only [Space.indexOpt, hshort sp.dimensions index hlen hv]
    rw [List.get?_eq_get hofs]
    rfl
  · intro p index hwf hpos hlen hv
    have hofs : specOffset p.dimensions index < p.values.length := by
      have := specOffset_lt_prod p.dimensions index hlen hv hpos
      omega
    simp only [Position.indexOpt, hshort p.dimensions index hlen hv]
    rw [List.get?_eq_get hofs]
    rfl

/-- Witness for C10 (amended): a 2-of-3-component index into a 2×2×3
space resolves without aborting. -/
theorem claim_C10_witness :
    calculate_index [2, 2, 3] [1, 1] = .ok 3 ∧
    calculate_index [7] [] = .ok 0 ∧
    (Space.indexOpt
      (Space.simple_all (.INTEGER 0 9) 4) [2]).isSome = true := by
  refine ⟨?_, claim_C10_amended.2.1 [7], ?_⟩
  · exact claim_C10_amended.1 [2, 2, 3] [1, 1] (by decide) (by decide)
  · exact claim_C10_amended.2.2.1 (Space.simple_all (.INTEGER 0 9) 4) [2]
      (by decide) (by decide) (by decide) (by decide)

end Gymnarium
